import Mathlib

/-!
Verification of the core of `tree_magic` (`src/lib.rs`): MIME-type
classification by walking a subclass graph.

Embedding conventions:
* `MIME` strings are Lean `String`s; byte streams are `List Nat`.
* The fixed checker list `CHECKERS` and the concrete checker modules
  (`fdo_magic`, `basetype`) are external plug-ins; they are modelled as an
  abstract `Checker` record mirroring the `Checker` trait of `lib.rs`, and
  all results are parametric in the checker list `cs`.
* Rust `FnvHashMap`s built by repeated `insert` (which overwrites) are
  modelled as functions `String → Option _` built by the same folds.
* `FnvHashSet` edge sets are modelled as duplicate-free lists in first
  insertion order (the Rust iteration order of a hash set is unspecified;
  every order-sensitive statement below is parametric in the order).
* `petgraph`'s `DiGraph` is modelled by `Graph`: a node list (node index =
  list position, as produced by successive `add_node`) and an edge list.
* The recursion of `typegraph_walker` is embedded with an explicit `fuel`
  bound; termination is treated explicitly (see the acyclicity theorem).
* Panics (`from_u8`'s `.unwrap()` and the missing-root panic) are modelled
  as `none`; file I/O is modelled by a function `fs : String → Option (List Nat)`
  giving each path's contents, `none` meaning the open/read fails.
-/

/-- Checker capability record, mirroring the `Checker` trait of `lib.rs`
(lines 80-86): a byte test, a path test, the supported type list, the
declared (child, parent) subclass pairs, and the alias list. The concrete
implementations (`fdo_magic::builtin::check::FdoMagic`,
`basetype::check::BaseType`) are external collaborators. -/
structure Checker where
  from_u8 : List Nat → String → Bool
  from_filepath : String → String → Bool
  get_supported : List String
  get_subclasses : List (String × String)
  get_aliaslist : List (String × String)

/-- Fixed priority list `TYPEORDER` of `lib.rs` lines 71-78. -/
def TYPEORDER : List String :=
  ["image/png", "image/jpeg", "image/gif", "application/zip",
   "application/x-msdos-executable", "application/pdf"]

/-- Directed graph over MIME labels: node index = position in `nodes`
(the order of `add_node` calls), edges as (source, target) index pairs. -/
structure Graph where
  nodes : List String
  edges : List (Nat × Nat)

/-- Label of node `i` (`TYPE.graph[i]`); total with default `""`. -/
def Graph.label (g : Graph) (i : Nat) : String := g.nodes.getD i ""

/-- Insertion into a sorted string list, for `mimelist.sort_unstable()`. -/
def insertSorted (a : String) : List String → List String
  | [] => [a]
  | b :: l => if a ≤ b then a :: b :: l else b :: insertSorted a l

/-- Sorting of the supported-type list (`mimelist.sort_unstable()`). -/
def sortStr (l : List String) : List String := l.foldr insertSorted []

/-- Consecutive deduplication (`mimelist.dedup()`). -/
def dedupConsec : List String → List String
  | [] => []
  | [a] => [a]
  | a :: b :: l => if a = b then dedupConsec (b :: l) else a :: dedupConsec (b :: l)

/-- Top-level category of a MIME identifier:
`mimetype.split('/').next().unwrap_or("")` of `lib.rs` line 222. -/
def topLevel (s : String) : String := String.mk (s.data.takeWhile (fun c => c ≠ '/'))

/-- Concatenated supported-type lists of all checkers (`graph_init`,
lines 142-145). -/
def mimeList (cs : List Checker) : List String := cs.flatMap Checker.get_supported

/-- Node labels after `sort_unstable` + `dedup` (lines 146-148); node
index in the graph = position here (lines 151-154). -/
def nodes0 (cs : List Checker) : List String := dedupConsec (sortStr (mimeList cs))

/-- Concatenated subclass declarations of all checkers (line 144). -/
def edgelistRaw (cs : List Checker) : List (String × String) :=
  cs.flatMap Checker.get_subclasses

/-- Set-semantics insertion (`FnvHashSet::insert`), modelled on lists. -/
def insertUniq (acc : List (Nat × Nat)) (e : Nat × Nat) : List (Nat × Nat) :=
  if acc.contains e then acc else acc ++ [e]

/-- Subclass edges (lines 160-179): for each declared (child, parent)
pair whose endpoints both exist, the edge (child index, parent index);
pairs with an unknown endpoint are dropped. -/
def edges1 (cs : List Checker) : List (Nat × Nat) :=
  (edgelistRaw cs).foldl
    (fun acc cp =>
      if (nodes0 cs).contains cp.2 then
        if (nodes0 cs).contains cp.1 then
          insertUniq acc ((nodes0 cs).indexOf cp.1, (nodes0 cs).indexOf cp.2)
        else acc
      else acc)
    []

/-- Nodes appended when `"text/plain"` is absent (lines 186-193). -/
def textTail (cs : List Checker) : List String :=
  if (nodes0 cs).contains "text/plain" then [] else ["text/plain"]

/-- Node list after the `"text/plain"` step. -/
def nodes1 (cs : List Checker) : List String := nodes0 cs ++ textTail cs

/-- Index `node_text` (lines 186-193): the existing node, looked up in the
pre-snapshot `added_mimes_tmp`, or the freshly appended one. -/
def iText (cs : List Checker) : Nat :=
  if (nodes0 cs).contains "text/plain" then (nodes0 cs).indexOf "text/plain"
  else (nodes0 cs).length

/-- Nodes appended when `"application/octet-stream"` is absent (lines 194-201). -/
def octetTail (cs : List Checker) : List String :=
  if (nodes0 cs).contains "application/octet-stream" then []
  else ["application/octet-stream"]

/-- Node list after the `"application/octet-stream"` step. -/
def nodes2 (cs : List Checker) : List String := nodes1 cs ++ octetTail cs

/-- Index `node_octet` (lines 194-201). -/
def iOctet (cs : List Checker) : Nat :=
  if (nodes0 cs).contains "application/octet-stream" then
    (nodes0 cs).indexOf "application/octet-stream"
  else (nodes1 cs).length

/-- Nodes appended when `"all/all"` is absent (lines 202-209). -/
def allTail (cs : List Checker) : List String :=
  if (nodes0 cs).contains "all/all" then [] else ["all/all"]

/-- Node list after the `"all/all"` step. -/
def nodes3 (cs : List Checker) : List String := nodes2 cs ++ allTail cs

/-- Index `node_allall` (lines 202-209). -/
def iAll (cs : List Checker) : Nat :=
  if (nodes0 cs).contains "all/all" then (nodes0 cs).indexOf "all/all"
  else (nodes2 cs).length

/-- Nodes appended when `"all/allfiles"` is absent (lines 210-217). -/
def filesTail (cs : List Checker) : List String :=
  if (nodes0 cs).contains "all/allfiles" then [] else ["all/allfiles"]

/-- Final node list of the graph. -/
def nodesF (cs : List Checker) : List String := nodes3 cs ++ filesTail cs

/-- Index `node_allfiles` (lines 210-217). -/
def iFiles (cs : List Checker) : Nat :=
  if (nodes0 cs).contains "all/allfiles" then (nodes0 cs).indexOf "all/allfiles"
  else (nodes3 cs).length

/-- Nodes with no incoming edge at the time of the orphan pass
(`graph.externals(Incoming)` of line 220, iterated in node-index order,
with only the subclass edges present). -/
def preExternals (cs : List Checker) : List Nat :=
  (List.range (nodesF cs).length).filter
    (fun i => !((edges1 cs).any (fun e => e.2 == i)))

/-- Structural parent chosen for an orphan by top-level category
(lines 232-238): `text` → `node_text`, `inode` → `node_allall`,
otherwise `node_octet`. -/
def structuralTarget (cs : List Checker) (i : Nat) : Nat :=
  let t := topLevel ((nodesF cs).getD i "")
  if t == "text" then iText cs else if t == "inode" then iAll cs else iOctet cs

/-- Orphan-attachment edges `edge_list_2` (lines 219-239): for each
pre-pass external node other than the four structural nodes, an edge from
its structural parent to it. -/
def edges2 (cs : List Checker) : List (Nat × Nat) :=
  (preExternals cs).foldl
    (fun acc i =>
      if i == iText cs || i == iOctet cs || i == iFiles cs || i == iAll cs then acc
      else insertUniq acc (structuralTarget cs i, i))
    []

/-- The graph built by `graph_init` (lines 135-244): subclass edges, then
`edge_list_2.difference(&edge_list)` appended (line 241). -/
def graphInit (cs : List Checker) : Graph :=
  ⟨nodesF cs, edges1 cs ++ (edges2 cs).filter (fun e => !((edges1 cs).contains e))⟩

/-- Direct successors of node `n`
(`TYPE.graph.neighbors_directed(parentnode, Outgoing)`, line 253-256). -/
def childrenIdx (g : Graph) (n : Nat) : List Nat :=
  (g.edges.filter (fun e => e.1 == n)).map (fun e => e.2)

/-- Nodes with no incoming edge, in node-index order
(`TYPE.graph.externals(Incoming)`). -/
def externalsList (g : Graph) : List Nat :=
  (List.range g.nodes.length).filter (fun i => !(g.edges.any (fun e => e.2 == i)))

/-- First external node (`externals(Incoming).next()`, lines 348-351). -/
def externalsHead (g : Graph) : Option Nat := (externalsList g).head?

/-- Registry index `CHECKER_SUPPORT` (lines 94-104): fold over the checker
list, `HashMap::insert` for each supported type. `insert` overwrites an
existing entry, modelled by function update. -/
def checkerSupport (cs : List Checker) : String → Option Checker :=
  cs.foldl
    (fun acc c =>
      c.get_supported.foldl (fun acc' m => fun k => if k = m then some c else acc' k) acc)
    (fun _ => none)

/-- Concatenated alias lists of all checkers, in checker order
(`ALIASES`, lines 106-114 — `extend` inserts each entry in turn). -/
def aliasPairs (cs : List Checker) : List (String × String) :=
  cs.flatMap Checker.get_aliaslist

/-- Alias table `ALIASES` as a map; later entries overwrite earlier ones,
as `HashMap::extend` does. -/
def aliasMap (cs : List Checker) : String → Option String :=
  (aliasPairs cs).foldl (fun acc p => fun k => if k = p.1 then some p.2 else acc k)
    (fun _ => none)

/-- Alias resolution `get_alias` (lines 284-289): one lookup; an unknown
identifier is returned unchanged. -/
def getAlias (cs : List Checker) (mimetype : String) : String :=
  (aliasMap cs mimetype).getD mimetype

/-- Byte match without alias resolution, `match_u8_noalias`
(lines 293-298): a type absent from the index yields `false`. -/
def match_u8_noalias (cs : List Checker) (mimetype : String) (bytes : List Nat) : Bool :=
  match checkerSupport cs mimetype with
  | none => false
  | some c => c.from_u8 bytes mimetype

/-- Public byte match `match_u8` (lines 315-317). -/
def match_u8 (cs : List Checker) (mimetype : String) (bytes : List Nat) : Bool :=
  match_u8_noalias cs (getAlias cs mimetype) bytes

/-- Path match without alias resolution, `match_filepath_noalias`
(lines 357-362). -/
def match_filepath_noalias (cs : List Checker) (mimetype : String) (filepath : String) :
    Bool :=
  match checkerSupport cs mimetype with
  | none => false
  | some c => c.from_filepath filepath mimetype

/-- Public path match `match_filepath` (lines 380-382). -/
def match_filepath (cs : List Checker) (mimetype : String) (filepath : String) : Bool :=
  match_filepath_noalias cs (getAlias cs mimetype) filepath

/-- One pass of the child-reordering loop of `typegraph_walker`
(lines 258-264): `k` counts the remaining iterations of
`for i in 0..children.len()` (the range is computed once), `i` is the
loop index; a child whose label is in `order` is removed at `i` and
reinserted at the front. -/
def reorderGo (order : List String) (label : Nat → String) :
    Nat → Nat → List Nat → List Nat
  | 0, _, l => l
  | k + 1, i, l =>
    match l[i]? with
    | none => reorderGo order label k (i + 1) l
    | some x =>
      if order.contains (label x) then reorderGo order label k (i + 1) (x :: l.eraseIdx i)
      else reorderGo order label k (i + 1) l

/-- Child-reordering heuristic of `typegraph_walker` (lines 258-264). -/
def reorder (order : List String) (label : Nat → String) (l : List Nat) : List Nat :=
  reorderGo order label l.length 0 l

/-- Loop body of `typegraph_walker` (lines 267-278), instrumented: walks
the already-reordered child list, returning the result together with the
list of node indices on which the predicate was invoked, in invocation
order. `w` is the recursive walk at the remaining fuel. On a match the
loop returns (the recursive result, or the child itself) without touching
the remaining children; on a non-match it continues. -/
def walkList {α : Type} (g : Graph) (f : String → α → Bool) (input : α)
    (w : Nat → Option String × List Nat) : List Nat → Option String × List Nat
  | [] => (none, [])
  | c :: rest =>
    if f (g.label c) input then
      match (w c).1 with
      | some t => (some t, c :: (w c).2)
      | none => (some (g.label c), c :: (w c).2)
    else
      ((walkList g f input w rest).1, c :: (walkList g f input w rest).2)

/-- Instrumented recursive walker with an explicit fuel bound and an
explicit priority list (`typegraph_walker`, lines 247-281): collect the
children of `n`, reorder them by `order`, then walk them. -/
def walkerT {α : Type} (order : List String) :
    Nat → Graph → Nat → (String → α → Bool) → α → Option String × List Nat
  | 0, _, _, _, _ => (none, [])
  | fuel + 1, g, n, f, input =>
    walkList g f input (fun c => walkerT order fuel g c f input)
      (reorder order g.label (childrenIdx g n))

/-- The walker `typegraph_walker` (lines 247-281) with the fixed
`TYPEORDER` priority list, result component only. -/
def typegraph_walker {α : Type} (fuel : Nat) (g : Graph) (parentnode : Nat)
    (input : α) (matchfn : String → α → Bool) : Option String :=
  (walkerT TYPEORDER fuel g parentnode matchfn input).1

/-- Byte walk from a given node, `from_u8_node` (lines 330-332). -/
def from_u8_node (cs : List Checker) (fuel : Nat) (parentnode : Nat)
    (bytes : List Nat) : Option String :=
  typegraph_walker fuel (graphInit cs) parentnode bytes (match_u8_noalias cs)

/-- Public identification `from_u8` (lines 347-353). The source panics
when no external node exists and `.unwrap()`s the walk result; both
aborts are modelled as `none`. -/
def from_u8 (cs : List Checker) (fuel : Nat) (bytes : List Nat) : Option String :=
  (externalsHead (graphInit cs)).bind (fun r => from_u8_node cs fuel r bytes)

/-- Bounded read `read_bytes` (lines 443-451):
`File::open(filepath)?.take(bytecount).read_to_end(..)` reads at most
`bytecount` bytes from the start of the file; `fs` gives each path's
contents, `none` meaning open/read failure. -/
def read_bytes (fs : String → Option (List Nat)) (filepath : String)
    (bytecount : Nat) : Option (List Nat) :=
  (fs filepath).map (fun l => l.take bytecount)

/-- Path walk from a given node, `from_filepath_node` (lines 395-414):
if the file is not even an `application/octet-stream`, walk with the path
predicate; otherwise read the first 2048 bytes and walk those. -/
def from_filepath_node (cs : List Checker) (fs : String → Option (List Nat))
    (fuel : Nat) (parentnode : Nat) (filepath : String) : Option String :=
  if !(match_filepath cs "application/octet-stream" filepath) then
    typegraph_walker fuel (graphInit cs) parentnode filepath (match_filepath_noalias cs)
  else
    match read_bytes fs filepath 2048 with
    | none => none
    | some b => from_u8_node cs fuel parentnode b

/-- Public identification `from_filepath` (lines 433-440); the
missing-root panic is modelled as `none`. -/
def from_filepath (cs : List Checker) (fs : String → Option (List Nat))
    (fuel : Nat) (filepath : String) : Option String :=
  (externalsHead (graphInit cs)).bind
    (fun r => from_filepath_node cs fs fuel r filepath)

/-- Last checker in registration order claiming support for `m`; the
behaviour `CHECKER_SUPPORT` actually implements, since `HashMap::insert`
overwrites. -/
def lastSupporting (cs : List Checker) (m : String) : Option Checker :=
  cs.foldl (fun acc c => if c.get_supported.contains m then some c else acc) none

/-- Edge relation of a graph. -/
def edgeRel (g : Graph) (a b : Nat) : Prop := (a, b) ∈ g.edges

/-- Every directed path starting at `n` has at most `k` edges. -/
def Bnd (g : Graph) (n : Nat) (k : Nat) : Prop :=
  ∀ p : List Nat, List.Chain (edgeRel g) n p → p.length ≤ k

/-- Absence of directed cycles, stated as: no directed path revisits a
node. -/
def NoCycle (g : Graph) : Prop :=
  ∀ (x : Nat) (p : List Nat), List.Chain (edgeRel g) x p → (x :: p).Nodup

/-- All edge endpoints are valid node indices. -/
def EdgesWF (g : Graph) : Prop :=
  ∀ e ∈ g.edges, e.1 < g.nodes.length ∧ e.2 < g.nodes.length

/-! Helper lemmas about the registry index and the alias table. -/

/-- Membership through `insertUniq`. -/
theorem insertUniq_mem {acc : List (Nat × Nat)} {x e : Nat × Nat}
    (h : e ∈ insertUniq acc x) : e ∈ acc ∨ e = x := by
  unfold insertUniq at h
  by_cases hc : acc.contains x = true
  · rw [if_pos hc] at h; exact Or.inl h
  · rw [if_neg hc] at h
    rcases List.mem_append.mp h with h' | h'
    · exact Or.inl h'
    · exact Or.inr (by simpa using h')

/-- Insertion preserves membership. -/
theorem insertUniq_mem_of_mem {acc : List (Nat × Nat)} {x e : Nat × Nat}
    (h : e ∈ acc) : e ∈ insertUniq acc x := by
  unfold insertUniq
  by_cases hc : acc.contains x = true
  · rwa [if_pos hc]
  · rw [if_neg hc]; exact List.mem_append_left _ h

/-- The inserted element is a member. -/
theorem insertUniq_mem_self (acc : List (Nat × Nat)) (x : Nat × Nat) :
    x ∈ insertUniq acc x := by
  unfold insertUniq
  by_cases hc : acc.contains x = true
  · rw [if_pos hc]; simpa using hc
  · rw [if_neg hc]; exact List.mem_append_right _ (by simp)

/-- Any binding produced by the alias fold comes from one of the pairs. -/
theorem aliasFold_mem (l : List (String × String)) :
    ∀ (acc : String → Option String) (a b : String),
      (l.foldl (fun acc' p => fun k => if k = p.1 then some p.2 else acc' k) acc) a = some b →
      (a, b) ∈ l ∨ acc a = some b := by
  induction l with
  | nil => intro acc a b h; exact Or.inr h
  | cons p l ih =>
    intro acc a b h
    rw [List.foldl_cons] at h
    rcases ih _ a b h with h' | h'
    · exact Or.inl (List.mem_cons_of_mem _ h')
    · by_cases hap : a = p.1
      · rw [if_pos hap] at h'
        have hb : p.2 = b := by injection h'
        refine Or.inl ?_
        rw [hap, ← hb]
        exact List.mem_cons_self _ _
      · rw [if_neg hap] at h'; exact Or.inr h'

/-- Any binding of the alias table is one of the declared alias pairs. -/
theorem aliasMap_mem {cs : List Checker} {a b : String} (h : aliasMap cs a = some b) :
    (a, b) ∈ aliasPairs cs := by
  rcases aliasFold_mem (aliasPairs cs) _ a b h with h' | h'
  · exact h'
  · exact absurd h' (by simp)

/-- Value of the inner per-checker fold of `CHECKER_SUPPORT`: after
inserting all of one checker's supported types, a key maps to that
checker exactly when the checker supports it. -/
theorem supportFold_eq (c : Checker) (l : List String) :
    ∀ (acc : String → Option Checker) (k : String),
      (l.foldl (fun acc' m => fun k' => if k' = m then some c else acc' k') acc) k =
        if l.contains k then some c else acc k := by
  induction l with
  | nil => intro acc k; simp
  | cons m l ih =>
    intro acc k
    rw [List.foldl_cons, ih]
    by_cases hk : k = m
    · subst hk
      by_cases hl : l.contains k = true
      · simp [hl]
      · simp [hl]
    · by_cases hl : l.contains k = true
      · simp [hl, hk]
      · simp [hl, hk]

/-- The two `CHECKER_SUPPORT` folds agree pointwise: the full map built by
overwriting inserts equals the last-supporting-checker fold. -/
theorem supportFold_lastSupporting (l : List Checker) (k : String) :
    ∀ (acc1 : String → Option Checker) (acc2 : Option Checker), acc1 k = acc2 →
      (l.foldl
          (fun acc c =>
            c.get_supported.foldl (fun acc' m => fun k' => if k' = m then some c else acc' k')
              acc)
          acc1) k =
        l.foldl (fun acc c => if c.get_supported.contains k then some c else acc) acc2 := by
  induction l with
  | nil => intro acc1 acc2 h; exact h
  | cons c l ih =>
    intro acc1 acc2 h
    rw [List.foldl_cons, List.foldl_cons]
    apply ih
    rw [supportFold_eq]
    by_cases hc : c.get_supported.contains k = true
    · rw [if_pos hc, if_pos hc]
    · rw [if_neg hc, if_neg hc]; exact h

/-! Helper lemmas about the child-reordering heuristic. -/

/-- Moving the element at position `i` to the front is a permutation. -/
theorem cons_eraseIdx_perm :
    ∀ (l : List Nat) (i x : Nat), l[i]? = some x → (x :: l.eraseIdx i).Perm l
  | [], i, x, h => by simp at h
  | a :: l, 0, x, h => by
    have hx : x = a := by simpa using h.symm
    subst hx
    simp [List.eraseIdx_cons_zero]
  | a :: l, i + 1, x, h => by
    have h' : l[i]? = some x := by simpa using h
    have ih := cons_eraseIdx_perm l i x h'
    rw [List.eraseIdx_cons_succ]
    exact List.Perm.trans (List.Perm.swap a x (l.eraseIdx i)) (List.Perm.cons a ih)

/-- Removing an element the filter rejects does not change the filter. -/
theorem filter_eraseIdx_not (p : Nat → Bool) :
    ∀ (l : List Nat) (i x : Nat), l[i]? = some x → p x = false →
      (l.eraseIdx i).filter p = l.filter p
  | [], i, x, h, _ => by simp at h
  | a :: l, 0, x, h, hp => by
    have hx : x = a := by simpa using h.symm
    subst hx
    simp [List.eraseIdx_cons_zero, List.filter_cons, hp]
  | a :: l, i + 1, x, h, hp => by
    have h' : l[i]? = some x := by simpa using h
    rw [List.eraseIdx_cons_succ, List.filter_cons, List.filter_cons,
      filter_eraseIdx_not p l i x h' hp]

/-- The reorder loop is a permutation of its input. -/
theorem reorderGo_perm (order : List String) (label : Nat → String) :
    ∀ (k i : Nat) (l : List Nat), (reorderGo order label k i l).Perm l := by
  intro k
  induction k with
  | zero => intro i l; exact List.Perm.refl l
  | succ k ih =>
    intro i l
    rw [reorderGo]
    split
    · exact ih (i + 1) l
    · next x h =>
        by_cases hc : order.contains (label x) = true
        · rw [if_pos hc]
          exact (ih (i + 1) _).trans (cons_eraseIdx_perm l i x h)
        · rw [if_neg hc]
          exact ih (i + 1) l

/-- The reordered child list is a permutation of the original. -/
theorem reorder_perm (order : List String) (label : Nat → String) (l : List Nat) :
    (reorder order label l).Perm l :=
  reorderGo_perm order label l.length 0 l

/-- The reorder loop preserves the non-prioritised elements in order. -/
theorem reorderGo_filter (order : List String) (label : Nat → String) :
    ∀ (k i : Nat) (l : List Nat),
      (reorderGo order label k i l).filter (fun x => !(order.contains (label x))) =
        l.filter (fun x => !(order.contains (label x))) := by
  intro k
  induction k with
  | zero => intro i l; rfl
  | succ k ih =>
    intro i l
    rw [reorderGo]
    split
    · exact ih (i + 1) l
    · next x h =>
        by_cases hc : order.contains (label x) = true
        · rw [if_pos hc, ih (i + 1) _, List.filter_cons]
          have hp : (!(order.contains (label x))) = false := by rw [hc]; rfl
          rw [hp]
          simp only [Bool.false_eq_true, if_false]
          exact filter_eraseIdx_not _ l i x h hp
        · rw [if_neg hc]
          exact ih (i + 1) l

/-- The relative order of children outside the priority list is unchanged
by the reordering heuristic. -/
theorem reorder_filter (order : List String) (label : Nat → String) (l : List Nat) :
    (reorder order label l).filter (fun x => !(order.contains (label x))) =
      l.filter (fun x => !(order.contains (label x))) :=
  reorderGo_filter order label l.length 0 l

/-! Helper lemmas about the graph walk. -/

/-- Step equation of the walk loop when the head child matches: the loop
returns the recursive result or, failing that, the child itself, and
records the child at the head of the trace. -/
theorem walkList_cons_true {α : Type} (g : Graph) (f : String → α → Bool) (input : α)
    (w : Nat → Option String × List Nat) (c : Nat) (rest : List Nat)
    (hf : f (g.label c) input = true) :
    walkList g f input w (c :: rest) =
      (some (((w c).1).getD (g.label c)), c :: (w c).2) := by
  rw [walkList, if_pos hf]
  cases hw : (w c).1 <;> simp [hw]

/-- Step equation of the walk loop when the head child does not match:
the loop records the child and continues with the remaining children. -/
theorem walkList_cons_false {α : Type} (g : Graph) (f : String → α → Bool) (input : α)
    (w : Nat → Option String × List Nat) (c : Nat) (rest : List Nat)
    (hf : f (g.label c) input = false) :
    walkList g f input w (c :: rest) =
      ((walkList g f input w rest).1, c :: (walkList g f input w rest).2) := by
  rw [walkList, if_neg (by simp [hf])]

/-- Any result of the walk loop comes from a child that matched: either
the recursion below it produced the result, or the child itself is it. -/
theorem walkList_fst_some {α : Type} (g : Graph) (f : String → α → Bool) (input : α)
    (w : Nat → Option String × List Nat) :
    ∀ (L : List Nat) (t : String), (walkList g f input w L).1 = some t →
      ∃ c ∈ L, f (g.label c) input = true ∧
        ((w c).1 = some t ∨ ((w c).1 = none ∧ t = g.label c)) := by
  intro L
  induction L with
  | nil => intro t h; simp [walkList] at h
  | cons c rest ih =>
    intro t h
    by_cases hf : f (g.label c) input = true
    · rw [walkList_cons_true g f input w c rest hf] at h
      have h' : ((w c).1).getD (g.label c) = t := by simpa using h
      refine ⟨c, List.mem_cons_self c rest, hf, ?_⟩
      cases hw : (w c).1 with
      | some t' =>
        rw [hw] at h'
        exact Or.inl (by simpa using h')
      | none =>
        rw [hw] at h'
        exact Or.inr ⟨rfl, by simpa using h'.symm⟩
    · rw [walkList_cons_false g f input w c rest (by simpa using hf)] at h
      obtain ⟨c', hc', hrest⟩ := ih t h
      exact ⟨c', List.mem_cons_of_mem _ hc', hrest⟩

/-- The walk loop finds a result exactly when some child matches. -/
theorem walkList_fst_isSome {α : Type} (g : Graph) (f : String → α → Bool) (input : α)
    (w : Nat → Option String × List Nat) :
    ∀ L : List Nat,
      ((walkList g f input w L).1).isSome = L.any (fun c => f (g.label c) input) := by
  intro L
  induction L with
  | nil => simp [walkList]
  | cons c rest ih =>
    by_cases hf : f (g.label c) input = true
    · rw [walkList_cons_true g f input w c rest hf]
      simp [hf]
    · rw [walkList_cons_false g f input w c rest (by simpa using hf)]
      simp only [List.any_cons]
      rw [ih]
      simp [hf]

/-- The walk loop only evaluates the recursion on members of its list. -/
theorem walkList_congr {α : Type} (g : Graph) (f : String → α → Bool) (input : α)
    (w1 w2 : Nat → Option String × List Nat) :
    ∀ L : List Nat, (∀ c ∈ L, w1 c = w2 c) →
      walkList g f input w1 L = walkList g f input w2 L := by
  intro L
  induction L with
  | nil => intro _; rfl
  | cons c rest ih =>
    intro hag
    have hc := hag c (List.mem_cons_self c rest)
    have hrest := ih (fun c' h' => hag c' (List.mem_cons_of_mem _ h'))
    by_cases hf : f (g.label c) input = true
    · rw [walkList_cons_true g f input w1 c rest hf,
        walkList_cons_true g f input w2 c rest hf, hc]
    · rw [walkList_cons_false g f input w1 c rest (by simpa using hf),
        walkList_cons_false g f input w2 c rest (by simpa using hf), hrest]

/-- Any type returned by the walker satisfied the match predicate when it
was examined. -/
theorem walkerT_fst_some {α : Type} (order : List String) (g : Graph)
    (f : String → α → Bool) (input : α) :
    ∀ (fuel n : Nat) (t : String),
      (walkerT order fuel g n f input).1 = some t → f t input = true := by
  intro fuel
  induction fuel with
  | zero => intro n t h; simp [walkerT] at h
  | succ fuel ih =>
    intro n t h
    rw [walkerT] at h
    obtain ⟨c, _, hf, hcase⟩ := walkList_fst_some g f input _ _ t h
    rcases hcase with hw | ⟨_, ht⟩
    · exact ih c t hw
    · rw [ht]; exact hf

/-- The walker finds a result exactly when some direct child of the start
node matches the input; the reordering heuristic cannot change this. -/
theorem walkerT_fst_isSome {α : Type} (order : List String) (g : Graph) (n : Nat)
    (f : String → α → Bool) (input : α) (fuel : Nat) :
    ((walkerT order (fuel + 1) g n f input).1).isSome =
      (childrenIdx g n).any (fun c => f (g.label c) input) := by
  rw [walkerT, walkList_fst_isSome]
  have hp := reorder_perm order g.label (childrenIdx g n)
  rw [Bool.eq_iff_iff, List.any_eq_true, List.any_eq_true]
  constructor
  · rintro ⟨c, hc, hfc⟩
    exact ⟨c, hp.mem_iff.mp hc, hfc⟩
  · rintro ⟨c, hc, hfc⟩
    exact ⟨c, hp.mem_iff.mpr hc, hfc⟩

/-- Membership in a node's child list corresponds to an edge. -/
theorem childrenIdx_mem_edges (g : Graph) (n c : Nat) (h : c ∈ childrenIdx g n) :
    (n, c) ∈ g.edges := by
  unfold childrenIdx at h
  obtain ⟨e, he, rfl⟩ := List.mem_map.mp h
  obtain ⟨hmem, hfst⟩ := List.mem_filter.mp he
  have : e.1 = n := by simpa using hfst
  have hpe : (n, e.2) = e := by rw [← this]
  rwa [hpe]

/-- Every node in a walk-loop trace is either one of the listed children,
or lies in the recursive trace of a listed child that matched; in the
latter case that child and its whole recursive trace are in the trace. -/
theorem walkList_trace_mem {α : Type} (g : Graph) (f : String → α → Bool) (input : α)
    (w : Nat → Option String × List Nat) :
    ∀ (L : List Nat) (c : Nat), c ∈ (walkList g f input w L).2 →
      c ∈ L ∨
        ∃ c0, c0 ∈ (walkList g f input w L).2 ∧
          (∀ d ∈ (w c0).2, d ∈ (walkList g f input w L).2) ∧
          f (g.label c0) input = true ∧ c ∈ (w c0).2 := by
  intro L
  induction L with
  | nil => intro c h; simp [walkList] at h
  | cons c0 rest ih =>
    intro c h
    by_cases hf : f (g.label c0) input = true
    · rw [walkList_cons_true g f input w c0 rest hf] at h ⊢
      simp only [List.mem_cons] at h
      rcases h with rfl | h
      · exact Or.inl (List.mem_cons_self c rest)
      · exact Or.inr ⟨c0, List.mem_cons_self c0 _,
          fun d hd => List.mem_cons_of_mem _ hd, hf, h⟩
    · rw [walkList_cons_false g f input w c0 rest (by simpa using hf)] at h ⊢
      simp only [List.mem_cons] at h
      rcases h with rfl | h
      · exact Or.inl (List.mem_cons_self c rest)
      · rcases ih c h with h' | ⟨c1, hc1, hsub, hfc1, hcw⟩
        · exact Or.inl (List.mem_cons_of_mem _ h')
        · exact Or.inr ⟨c1, List.mem_cons_of_mem _ hc1,
            fun d hd => List.mem_cons_of_mem _ (hsub d hd), hfc1, hcw⟩

/-- Two fuel bounds that both dominate every path from the start node give
the same walk. -/
theorem walkerT_congr {α : Type} (order : List String) (g : Graph)
    (f : String → α → Bool) (input : α) :
    ∀ (k n a b : Nat), Bnd g n k → k < a → k < b →
      walkerT order a g n f input = walkerT order b g n f input := by
  intro k
  induction k with
  | zero =>
    intro n a b hbnd ha hb
    obtain ⟨a', rfl⟩ : ∃ a', a = a' + 1 := ⟨a - 1, by omega⟩
    obtain ⟨b', rfl⟩ : ∃ b', b = b' + 1 := ⟨b - 1, by omega⟩
    rw [walkerT, walkerT]
    apply walkList_congr
    intro c hc
    have hc' : c ∈ childrenIdx g n :=
      (reorder_perm order g.label (childrenIdx g n)).mem_iff.mp hc
    have hedge : (n, c) ∈ g.edges := childrenIdx_mem_edges g n c hc'
    have := hbnd [c] (List.Chain.cons hedge List.Chain.nil)
    simp at this
  | succ k ih =>
    intro n a b hbnd ha hb
    obtain ⟨a', rfl⟩ : ∃ a', a = a' + 1 := ⟨a - 1, by omega⟩
    obtain ⟨b', rfl⟩ : ∃ b', b = b' + 1 := ⟨b - 1, by omega⟩
    rw [walkerT, walkerT]
    apply walkList_congr
    intro c hc
    have hc' : c ∈ childrenIdx g n :=
      (reorder_perm order g.label (childrenIdx g n)).mem_iff.mp hc
    have hedge : (n, c) ∈ g.edges := childrenIdx_mem_edges g n c hc'
    have hbc : Bnd g c k := by
      intro p hp
      have := hbnd (c :: p) (List.Chain.cons hedge hp)
      simpa using this
    exact ih c a' b' hbc (by omega) (by omega)

/-- A rank function strictly decreasing along edges rules out directed
cycles. -/
theorem rank_noCycle (g : Graph) (rank : Nat → Nat)
    (h : ∀ e ∈ g.edges, rank e.2 < rank e.1) : NoCycle g := by
  intro x p hch
  have hch' : List.Chain (fun a b => rank b < rank a) x p :=
    List.Chain.imp (fun a b hab => h (a, b) hab) hch
  haveI : IsTrans Nat (fun a b => rank b < rank a) :=
    ⟨fun _ _ _ h1 h2 => Nat.lt_trans h2 h1⟩
  have hpw : List.Pairwise (fun a b => rank b < rank a) (x :: p) :=
    List.chain_iff_pairwise.mp hch'
  exact hpw.imp (fun hab => fun heq => by subst heq; exact Nat.lt_irrefl _ hab)

/-- All nodes along a directed path out of a well-formed graph are valid
indices. -/
theorem chain_elems_lt (g : Graph) (hwf : EdgesWF g) :
    ∀ (p : List Nat) (x : Nat), List.Chain (edgeRel g) x p →
      ∀ y ∈ p, y < g.nodes.length := by
  intro p
  induction p with
  | nil => intro x _ y hy; simp at hy
  | cons a p ih =>
    intro x hch y hy
    rw [List.chain_cons] at hch
    rcases List.mem_cons.mp hy with rfl | hy'
    · exact (hwf (x, y) hch.1).2
    · exact ih a hch.2 y hy'

/-- On a well-formed acyclic graph, every path out of a valid node has at
most as many edges as there are nodes. -/
theorem noCycle_bnd (g : Graph) (hwf : EdgesWF g) (hnc : NoCycle g) (n : Nat)
    (hn : n < g.nodes.length) : Bnd g n g.nodes.length := by
  intro p hp
  have hnd : (n :: p).Nodup := hnc n p hp
  have hlt : ∀ y ∈ n :: p, y < g.nodes.length := by
    intro y hy
    rcases List.mem_cons.mp hy with rfl | hy'
    · exact hn
    · exact chain_elems_lt g hwf p n hp y hy'
  have hsub : (n :: p).toFinset ⊆ Finset.range g.nodes.length := by
    intro y hy
    exact Finset.mem_range.mpr (hlt y (List.mem_toFinset.mp hy))
  have hlen : (n :: p).length ≤ g.nodes.length := by
    calc (n :: p).length = (n :: p).toFinset.card :=
          (List.toFinset_card_of_nodup hnd).symm
      _ ≤ (Finset.range g.nodes.length).card := Finset.card_le_card hsub
      _ = g.nodes.length := Finset.card_range _
  simpa using Nat.le_of_succ_le hlen

/-! Helper lemmas about `graph_init`. -/

/-- Subclass edges have both endpoints among the checker-declared nodes. -/
theorem edges1_wf (cs : List Checker) :
    ∀ e ∈ edges1 cs, e.1 < (nodes0 cs).length ∧ e.2 < (nodes0 cs).length := by
  unfold edges1
  suffices h : ∀ (l : List (String × String)) (acc : List (Nat × Nat)),
      (∀ e ∈ acc, e.1 < (nodes0 cs).length ∧ e.2 < (nodes0 cs).length) →
      ∀ e ∈ l.foldl
          (fun acc cp =>
            if (nodes0 cs).contains cp.2 then
              if (nodes0 cs).contains cp.1 then
                insertUniq acc ((nodes0 cs).indexOf cp.1, (nodes0 cs).indexOf cp.2)
              else acc
            else acc)
          acc,
        e.1 < (nodes0 cs).length ∧ e.2 < (nodes0 cs).length by
    exact h (edgelistRaw cs) [] (by simp)
  intro l
  induction l with
  | nil => intro acc hacc e he; exact hacc e he
  | cons cp l ih =>
    intro acc hacc e he
    rw [List.foldl_cons] at he
    refine ih _ ?_ e he
    intro e' he'
    by_cases h2 : (nodes0 cs).contains cp.2 = true
    · rw [if_pos h2] at he'
      by_cases h1 : (nodes0 cs).contains cp.1 = true
      · rw [if_pos h1] at he'
        rcases insertUniq_mem he' with h' | h'
        · exact hacc e' h'
        · subst h'
          refine ⟨?_, ?_⟩
          · exact List.indexOf_lt_length.mpr (by simpa using h1)
          · exact List.indexOf_lt_length.mpr (by simpa using h2)
      · rw [if_neg h1] at he'; exact hacc e' he'
    · rw [if_neg h2] at he'; exact hacc e' he'

/-- The final node list extends the checker-declared node list. -/
theorem nodesF_eq (cs : List Checker) :
    nodesF cs = nodes0 cs ++ (textTail cs ++ (octetTail cs ++ (allTail cs ++ filesTail cs))) := by
  unfold nodesF nodes3 nodes2 nodes1
  simp [List.append_assoc]

/-- Node-list length only grows along the structural steps. -/
theorem nodes0_len_le (cs : List Checker) : (nodes0 cs).length ≤ (nodesF cs).length := by
  rw [nodesF_eq, List.length_append]; omega

/-- The `node_text` index is valid. -/
theorem iText_lt (cs : List Checker) : iText cs < (nodesF cs).length := by
  unfold iText
  by_cases h : (nodes0 cs).contains "text/plain" = true
  · rw [if_pos h]
    exact Nat.lt_of_lt_of_le (List.indexOf_lt_length.mpr (by simpa using h))
      (nodes0_len_le cs)
  · rw [if_neg h]
    have : textTail cs = ["text/plain"] := by unfold textTail; rw [if_neg h]
    rw [nodesF_eq, List.length_append, this]
    simp

/-- The `node_octet` index is valid. -/
theorem iOctet_lt (cs : List Checker) : iOctet cs < (nodesF cs).length := by
  unfold iOctet
  by_cases h : (nodes0 cs).contains "application/octet-stream" = true
  · rw [if_pos h]
    exact Nat.lt_of_lt_of_le (List.indexOf_lt_length.mpr (by simpa using h))
      (nodes0_len_le cs)
  · rw [if_neg h]
    have hoct : octetTail cs = ["application/octet-stream"] := by
      unfold octetTail; rw [if_neg h]
    have : nodesF cs = nodes1 cs ++ (octetTail cs ++ (allTail cs ++ filesTail cs)) := by
      unfold nodesF nodes3 nodes2
      simp [List.append_assoc]
    rw [this, List.length_append, hoct]
    simp

/-- The `node_allall` index is valid. -/
theorem iAll_lt (cs : List Checker) : iAll cs < (nodesF cs).length := by
  unfold iAll
  by_cases h : (nodes0 cs).contains "all/all" = true
  · rw [if_pos h]
    exact Nat.lt_of_lt_of_le (List.indexOf_lt_length.mpr (by simpa using h))
      (nodes0_len_le cs)
  · rw [if_neg h]
    have hall : allTail cs = ["all/all"] := by unfold allTail; rw [if_neg h]
    have : nodesF cs = nodes2 cs ++ (allTail cs ++ filesTail cs) := by
      unfold nodesF nodes3
      simp [List.append_assoc]
    rw [this, List.length_append, hall]
    simp

/-- Orphan-attachment edges have valid endpoints. -/
theorem edges2_wf (cs : List Checker) :
    ∀ e ∈ edges2 cs, e.1 < (nodesF cs).length ∧ e.2 < (nodesF cs).length := by
  unfold edges2
  suffices h : ∀ (l : List Nat) (acc : List (Nat × Nat)),
      (∀ i ∈ l, i < (nodesF cs).length) →
      (∀ e ∈ acc, e.1 < (nodesF cs).length ∧ e.2 < (nodesF cs).length) →
      ∀ e ∈ l.foldl
          (fun acc i =>
            if i == iText cs || i == iOctet cs || i == iFiles cs || i == iAll cs then acc
            else insertUniq acc (structuralTarget cs i, i))
          acc,
        e.1 < (nodesF cs).length ∧ e.2 < (nodesF cs).length by
    refine h (preExternals cs) [] ?_ (by simp)
    intro i hi
    have := (List.mem_filter.mp hi).1
    simpa using List.mem_range.mp this
  intro l
  induction l with
  | nil => intro acc _ hacc e he; exact hacc e he
  | cons i l ih =>
    intro acc hl hacc e he
    rw [List.foldl_cons] at he
    refine ih _ (fun j hj => hl j (List.mem_cons_of_mem _ hj)) ?_ e he
    intro e' he'
    by_cases hskip : (i == iText cs || i == iOctet cs || i == iFiles cs || i == iAll cs) = true
    · rw [if_pos hskip] at he'; exact hacc e' he'
    · rw [if_neg hskip] at he'
      rcases insertUniq_mem he' with h' | h'
      · exact hacc e' h'
      · subst h'
        refine ⟨?_, hl i (List.mem_cons_self i l)⟩
        unfold structuralTarget
        simp only []
        by_cases ht : (topLevel ((nodesF cs).getD i "") == "text") = true
        · rw [if_pos ht]; exact iText_lt cs
        · rw [if_neg ht]
          by_cases hino : (topLevel ((nodesF cs).getD i "") == "inode") = true
          · rw [if_pos hino]; exact iAll_lt cs
          · rw [if_neg hino]; exact iOctet_lt cs

/-- The graph built by `graph_init` is well-formed. -/
theorem graphInit_wf (cs : List Checker) : EdgesWF (graphInit cs) := by
  intro e he
  have hnodes : (graphInit cs).nodes = nodesF cs := rfl
  rw [hnodes]
  rcases List.mem_append.mp he with h | h
  · have := edges1_wf cs e h
    have hle := nodes0_len_le cs
    omega
  · exact edges2_wf cs e (List.mem_filter.mp h).1

/-- Lookup before the appended tail. -/
theorem getD_append_left (a b : List String) (i : Nat) (h : i < a.length) :
    (a ++ b).getD i "" = a.getD i "" := by
  rw [List.getD_eq_getElem?_getD, List.getD_eq_getElem?_getD, List.getElem?_append]
  rw [if_pos h]

/-- Lookup at the seam of an appended element. -/
theorem getD_append_len (a : List String) (m : String) (b : List String) :
    (a ++ (m :: b)).getD a.length "" = m := by
  rw [List.getD_eq_getElem?_getD, List.getElem?_append, if_neg (by omega)]
  simp

/-- A checker-declared node keeps its label in the final node list. -/
theorem label_nodes0_indexOf (cs : List Checker) (m : String)
    (h : (nodes0 cs).contains m = true) :
    (nodesF cs).getD ((nodes0 cs).indexOf m) "" = m := by
  have hmem : m ∈ nodes0 cs := by simpa using h
  have hlt : (nodes0 cs).indexOf m < (nodes0 cs).length :=
    List.indexOf_lt_length.mpr hmem
  rw [nodesF_eq, getD_append_left _ _ _ hlt, List.getD_eq_getElem?_getD,
    List.getElem?_eq_getElem hlt]
  simp only [Option.getD_some]
  exact List.getElem_indexOf hlt

/-- The `node_text` index is labelled `"text/plain"`. -/
theorem label_iText (cs : List Checker) :
    (graphInit cs).label (iText cs) = "text/plain" := by
  show (nodesF cs).getD (iText cs) "" = "text/plain"
  unfold iText
  by_cases h : (nodes0 cs).contains "text/plain" = true
  · rw [if_pos h]; exact label_nodes0_indexOf cs _ h
  · rw [if_neg h]
    have htail : textTail cs = ["text/plain"] := by unfold textTail; rw [if_neg h]
    rw [nodesF_eq, htail]
    exact getD_append_len _ _ _

/-- The `node_octet` index is labelled `"application/octet-stream"`. -/
theorem label_iOctet (cs : List Checker) :
    (graphInit cs).label (iOctet cs) = "application/octet-stream" := by
  show (nodesF cs).getD (iOctet cs) "" = "application/octet-stream"
  unfold iOctet
  by_cases h : (nodes0 cs).contains "application/octet-stream" = true
  · rw [if_pos h]; exact label_nodes0_indexOf cs _ h
  · rw [if_neg h]
    have htail : octetTail cs = ["application/octet-stream"] := by
      unfold octetTail; rw [if_neg h]
    have hsplit : nodesF cs =
        nodes1 cs ++ ("application/octet-stream" :: (allTail cs ++ filesTail cs)) := by
      unfold nodesF nodes3 nodes2
      rw [htail]
      simp [List.append_assoc]
    rw [hsplit]
    exact getD_append_len _ _ _

/-- The `node_allall` index is labelled `"all/all"`. -/
theorem label_iAll (cs : List Checker) :
    (graphInit cs).label (iAll cs) = "all/all" := by
  show (nodesF cs).getD (iAll cs) "" = "all/all"
  unfold iAll
  by_cases h : (nodes0 cs).contains "all/all" = true
  · rw [if_pos h]; exact label_nodes0_indexOf cs _ h
  · rw [if_neg h]
    have htail : allTail cs = ["all/all"] := by unfold allTail; rw [if_neg h]
    have hsplit : nodesF cs = nodes2 cs ++ ("all/all" :: filesTail cs) := by
      unfold nodesF nodes3
      rw [htail]
      simp [List.append_assoc]
    rw [hsplit]
    exact getD_append_len _ _ _

/-- The `node_allfiles` index is labelled `"all/allfiles"`. -/
theorem label_iFiles (cs : List Checker) :
    (graphInit cs).label (iFiles cs) = "all/allfiles" := by
  show (nodesF cs).getD (iFiles cs) "" = "all/allfiles"
  unfold iFiles
  by_cases h : (nodes0 cs).contains "all/allfiles" = true
  · rw [if_pos h]; exact label_nodes0_indexOf cs _ h
  · rw [if_neg h]
    have htail : filesTail cs = ["all/allfiles"] := by unfold filesTail; rw [if_neg h]
    have hsplit : nodesF cs = nodes3 cs ++ ("all/allfiles" :: []) := by
      unfold nodesF
      rw [htail]
    rw [hsplit]
    exact getD_append_len _ _ _

/-- The orphan fold only grows its accumulator. -/
theorem edges2_foldl_mono (cs : List Checker) :
    ∀ (l : List Nat) (acc : List (Nat × Nat)) (e : Nat × Nat), e ∈ acc →
      e ∈ l.foldl
        (fun acc i =>
          if i == iText cs || i == iOctet cs || i == iFiles cs || i == iAll cs then acc
          else insertUniq acc (structuralTarget cs i, i))
        acc := by
  intro l
  induction l with
  | nil => intro acc e he; exact he
  | cons j l ih =>
    intro acc e he
    rw [List.foldl_cons]
    refine ih _ e ?_
    by_cases hskip : (j == iText cs || j == iOctet cs || j == iFiles cs || j == iAll cs) = true
    · rwa [if_pos hskip]
    · rw [if_neg hskip]; exact insertUniq_mem_of_mem he

/-- Every non-structural pre-pass external gets its orphan edge. -/
theorem edges2_mem (cs : List Checker) (i : Nat) (hi : i ∈ preExternals cs)
    (hskip : (i == iText cs || i == iOctet cs || i == iFiles cs || i == iAll cs) = false) :
    (structuralTarget cs i, i) ∈ edges2 cs := by
  unfold edges2
  have hgen : ∀ (l : List Nat) (acc : List (Nat × Nat)), i ∈ l →
      (structuralTarget cs i, i) ∈ l.foldl
        (fun acc i =>
          if i == iText cs || i == iOctet cs || i == iFiles cs || i == iAll cs then acc
          else insertUniq acc (structuralTarget cs i, i))
        acc := by
    intro l
    induction l with
    | nil => intro acc h; simp at h
    | cons j l ih =>
      intro acc hj
      rw [List.foldl_cons]
      rcases List.mem_cons.mp hj with rfl | hj'
      · rw [if_neg (by rw [hskip]; exact Bool.false_ne_true)]
        exact edges2_foldl_mono cs l _ _ (insertUniq_mem_self _ _)
      · exact ih _ hj'
  exact hgen (preExternals cs) [] hi

/-- Any orphan edge survives the final duplicate check into the graph. -/
theorem edges2_sub_graph (cs : List Checker) (e : Nat × Nat) (he : e ∈ edges2 cs) :
    e ∈ (graphInit cs).edges := by
  show e ∈ edges1 cs ++ (edges2 cs).filter (fun e => !((edges1 cs).contains e))
  by_cases h : (edges1 cs).contains e = true
  · exact List.mem_append_left _ (by simpa using h)
  · refine List.mem_append_right _ ?_
    refine List.mem_filter.mpr ⟨he, ?_⟩
    have h' : (edges1 cs).contains e = false := Bool.eq_false_iff.mpr h
    rw [h']
    rfl

/-! Concrete checker instances and graphs used to instantiate theorems. -/

/-- Test checker supporting only `"text/x-log"`, whose byte test accepts
exactly that type. -/
def cLog : Checker :=
  ⟨fun _ m => m == "text/x-log", fun _ _ => false, ["text/x-log"], [], []⟩

/-- Test checker supporting `"image/png"` whose tests always reject. -/
def cexChecker : Checker :=
  ⟨fun _ _ => false, fun _ _ => false, ["image/png"], [], []⟩

/-- Test checker supporting `"a/b"`, byte test rejecting. -/
def cFirst : Checker :=
  ⟨fun _ _ => false, fun _ _ => false, ["a/b"], [], []⟩

/-- Test checker supporting `"a/b"`, byte test accepting. -/
def cSecond : Checker :=
  ⟨fun _ _ => true, fun _ _ => false, ["a/b"], [], []⟩

/-- Test graph: root `"a/a"` with the two children `"x/y"` and
`"image/png"`, in that edge order. -/
def gSmall : Graph := ⟨["a/a", "x/y", "image/png"], [(0, 1), (0, 2)]⟩

/-- Test checker supporting `"application/octet-stream"` whose path test
accepts exactly that type. -/
def cOctet : Checker :=
  ⟨fun _ _ => false, fun _ m => m == "application/octet-stream",
    ["application/octet-stream"], [], []⟩

/-- Test checker with one alias pair mapping
`"application/x-zip-compressed"` to `"application/zip"`. -/
def cZip : Checker :=
  ⟨fun _ m => m == "application/zip", fun _ _ => false, ["application/zip"], [],
    [("application/x-zip-compressed", "application/zip")]⟩

/-- Test file system: every path holds the bytes `[7, 8, 9]`. -/
def fsTest : String → Option (List Nat) := fun _ => some [7, 8, 9]

/-! Claim theorems. -/

/-- C1: whenever `from_u8` identifies a type `T` for a byte input `B`,
`match_u8 T B` is true — the identified type matches its own input. The
hypothesis `getAlias cs T = T` is the Alias Table contract that a
canonical (graph-node) identifier is its own canonical form; the concrete
alias data lives in the external checker modules. -/
theorem from_u8_matches_own_input (cs : List Checker) (fuel : Nat) (B : List Nat)
    (T : String) (h1 : from_u8 cs fuel B = some T) (h2 : getAlias cs T = T) :
    match_u8 cs T B = true := by
  unfold from_u8 at h1
  cases hr : externalsHead (graphInit cs) with
  | none => rw [hr] at h1; simp at h1
  | some r =>
    rw [hr] at h1
    simp only [Option.some_bind] at h1
    unfold from_u8_node typegraph_walker at h1
    have hm := walkerT_fst_some TYPEORDER (graphInit cs) (match_u8_noalias cs) B fuel r T h1
    unfold match_u8
    rw [h2]
    exact hm

/-- Witness for C1: the single-checker registry identifying
`"text/x-log"`, which then matches its own input. -/
theorem from_u8_matches_own_input_witness :
    (from_u8 [cLog] 3 [] = some "text/x-log" ∧
        getAlias [cLog] "text/x-log" = "text/x-log") ∧
      match_u8 [cLog] "text/x-log" [] = true :=
  ⟨⟨by decide, by decide⟩,
    from_u8_matches_own_input [cLog] 3 [] "text/x-log" (by decide) (by decide)⟩

/-- C2, counterexample: a registry with one registered type (`"image/png"`)
whose test rejects the input; `from_u8` returns no result (the source
panics in `.unwrap()`) instead of a structural fallback, although a type
is registered. -/
theorem from_u8_no_fallback_counterexample :
    mimeList [cexChecker] ≠ [] ∧ from_u8 [cexChecker] 5 [] = none :=
  ⟨by decide, by decide⟩

/-- C2, amended: `from_u8` returns a type exactly when the graph has a
node with no incoming edge and some direct child of the first such node
matches the input; when no child matches, it returns no result (aborts)
rather than a fallback. -/
theorem from_u8_isSome_iff_child_matches (cs : List Checker) (B : List Nat) (fuel : Nat) :
    (from_u8 cs (fuel + 1) B).isSome = true ↔
      ∃ r, externalsHead (graphInit cs) = some r ∧
        ∃ c ∈ childrenIdx (graphInit cs) r,
          match_u8_noalias cs ((graphInit cs).label c) B = true := by
  unfold from_u8
  cases hr : externalsHead (graphInit cs) with
  | none => simp
  | some r =>
    simp only [Option.some_bind]
    unfold from_u8_node typegraph_walker
    rw [walkerT_fst_isSome]
    constructor
    · intro h
      obtain ⟨c, hc, hfc⟩ := List.any_eq_true.mp h
      exact ⟨r, rfl, c, hc, hfc⟩
    · rintro ⟨r', hr', c, hc, hfc⟩
      have : r' = r := by injection hr' with h'; exact h'.symm
      subst this
      exact List.any_eq_true.mpr ⟨c, hc, hfc⟩

/-- C3, counterexample: with two sibling children that both match, the
`TYPEORDER` reordering changes which type the walk returns: moving
`"image/png"` to the front yields `"image/png"` where the walk with an
empty priority list yields `"x/y"`. -/
theorem reorder_changes_result_counterexample :
    (walkerT TYPEORDER 2 gSmall 0 (fun _ _ => true) ([] : List Nat)).1 = some "image/png" ∧
      (walkerT [] 2 gSmall 0 (fun _ _ => true) ([] : List Nat)).1 = some "x/y" ∧
      (walkerT TYPEORDER 2 gSmall 0 (fun _ _ => true) ([] : List Nat)).1 ≠
        (walkerT [] 2 gSmall 0 (fun _ _ => true) ([] : List Nat)).1 :=
  ⟨by decide, by decide, by decide⟩

/-- C3, amended: the reordering heuristic never changes whether a type is
found (only which one, when several sibling branches match), and it
preserves the relative order of the non-prioritised children. -/
theorem reorder_preserves_isSome_and_nonpriority_order :
    (∀ (α : Type) (order : List String) (fuel : Nat) (g : Graph) (n : Nat)
        (f : String → α → Bool) (input : α),
        ((walkerT order fuel g n f input).1).isSome =
          ((walkerT [] fuel g n f input).1).isSome) ∧
      ∀ (order : List String) (label : Nat → String) (l : List Nat),
        (reorder order label l).filter (fun x => !(order.contains (label x))) =
          l.filter (fun x => !(order.contains (label x))) := by
  constructor
  · intro α order fuel g n f input
    cases fuel with
    | zero => rfl
    | succ fuel => rw [walkerT_fst_isSome, walkerT_fst_isSome]
  · exact reorder_filter

/-- C4, counterexample: two checkers both support `"a/b"`; the index maps
it to the *second* one (`HashMap::insert` overwrites), so the tests used
are the later checker's, not the first-registered one's. -/
theorem checker_support_first_wins_counterexample :
    cFirst.from_u8 [] "a/b" = false ∧
      ((checkerSupport [cFirst, cSecond] "a/b").map (fun c => c.from_u8 [] "a/b")) =
        some true ∧
      match_u8_noalias [cFirst, cSecond] "a/b" [] = true :=
  ⟨by decide, by decide, by decide⟩

/-- C4, amended: the registry index maps each MIME type to the *last*
checker in registration order that supports it; for overlapping support
claims the later-registered checker wins. -/
theorem checker_support_last_wins (cs : List Checker) (m : String) :
    checkerSupport cs m = lastSupporting cs m :=
  supportFold_lastSupporting cs m _ none rfl

/-- C5: when the octet-stream fast-path test succeeds and the bounded
prefix read succeeds, `from_filepath` equals `from_u8` on the first 2048
bytes of the file; and `read_bytes` returns at most 2048 bytes, a prefix
(`take`) of the file's contents. -/
theorem from_filepath_fastpath_equiv (cs : List Checker)
    (fs : String → Option (List Nat)) (path : String) (fuel : Nat) (content : List Nat)
    (h1 : match_filepath cs "application/octet-stream" path = true)
    (h2 : fs path = some content) :
    from_filepath cs fs fuel path = from_u8 cs fuel (content.take 2048) ∧
      ∀ b, read_bytes fs path 2048 = some b →
        b.length ≤ 2048 ∧ b = content.take 2048 := by
  constructor
  · unfold from_filepath from_u8
    cases hr : externalsHead (graphInit cs) with
    | none => rfl
    | some r =>
      simp only [Option.some_bind]
      unfold from_filepath_node
      rw [h1]
      simp only [Bool.not_true, Bool.false_eq_true, if_false]
      unfold read_bytes
      rw [h2]
      rfl
  · intro b hb
    unfold read_bytes at hb
    rw [h2] at hb
    have hb' : content.take 2048 = b := by
      have h' : some (content.take 2048) = some b := by rw [← hb]; rfl
      injection h'
    constructor
    · rw [← hb', List.length_take]
      exact inf_le_left
    · exact hb'.symm

/-- Witness for C5: a checker whose path test accepts octet-stream and a
file holding `[7, 8, 9]`. -/
theorem from_filepath_fastpath_equiv_witness :
    (match_filepath [cOctet] "application/octet-stream" "p" = true ∧
        fsTest "p" = some [7, 8, 9]) ∧
      (from_filepath [cOctet] fsTest 4 "p" =
          from_u8 [cOctet] 4 (([7, 8, 9] : List Nat).take 2048) ∧
        ∀ b, read_bytes fsTest "p" 2048 = some b →
          b.length ≤ 2048 ∧ b = ([7, 8, 9] : List Nat).take 2048) :=
  ⟨⟨by decide, by decide⟩,
    from_filepath_fastpath_equiv [cOctet] fsTest "p" 4 [7, 8, 9] (by decide) (by decide)⟩

/-- C6, counterexample: with a single checker declaring only `"image/png"`
and no subclass edges, the graph built by `graph_init` has four nodes with
no incoming edge (`text/plain`, `application/octet-stream`, `all/all`,
`all/allfiles`), not exactly one root `all/all`. -/
theorem graph_init_root_unique_counterexample :
    externalsList (graphInit [cexChecker]) = [1, 2, 3, 4] ∧
      (externalsList (graphInit [cexChecker])).length ≠ 1 ∧
      (graphInit [cexChecker]).label 1 = "text/plain" :=
  ⟨by decide, by decide, by decide⟩

/-- C6, amended: every node whose label is none of the four structural
ones ends up with an incoming edge — either a declared subclass edge
points at it, or the orphan pass attaches it under the structural node
chosen by its top-level category; but the four structural nodes
themselves may stay rootless, so uniqueness of the root is not
guaranteed by `graph_init` alone. -/
theorem graph_init_nonstructural_has_incoming (cs : List Checker) (i : Nat)
    (hi : i < (graphInit cs).nodes.length)
    (h1 : (graphInit cs).label i ≠ "text/plain")
    (h2 : (graphInit cs).label i ≠ "application/octet-stream")
    (h3 : (graphInit cs).label i ≠ "all/all")
    (h4 : (graphInit cs).label i ≠ "all/allfiles") :
    (structuralTarget cs i, i) ∈ (graphInit cs).edges ∨ ∃ e ∈ edges1 cs, e.2 = i := by
  by_cases hinc : (edges1 cs).any (fun e => e.2 == i) = true
  · right
    obtain ⟨e, he, hei⟩ := List.any_eq_true.mp hinc
    exact ⟨e, he, by simpa using hei⟩
  · left
    have hipre : i ∈ preExternals cs := by
      refine List.mem_filter.mpr ⟨List.mem_range.mpr hi, ?_⟩
      rw [Bool.eq_false_iff.mpr hinc]
      rfl
    have e1 : i ≠ iText cs := fun h => h1 (by rw [h]; exact label_iText cs)
    have e2 : i ≠ iOctet cs := fun h => h2 (by rw [h]; exact label_iOctet cs)
    have e3 : i ≠ iFiles cs := fun h => h4 (by rw [h]; exact label_iFiles cs)
    have e4 : i ≠ iAll cs := fun h => h3 (by rw [h]; exact label_iAll cs)
    have hskip : (i == iText cs || i == iOctet cs || i == iFiles cs || i == iAll cs) = false := by
      simp [e1, e2, e3, e4]
    exact edges2_sub_graph cs _ (edges2_mem cs i hipre hskip)

/-- Witness for C6 amended: the `"text/x-log"` node of the one-checker
graph is attached under `text/plain`. -/
theorem graph_init_nonstructural_has_incoming_witness :
    (0 < (graphInit [cLog]).nodes.length ∧
        (graphInit [cLog]).label 0 ≠ "text/plain" ∧
        (graphInit [cLog]).label 0 ≠ "application/octet-stream" ∧
        (graphInit [cLog]).label 0 ≠ "all/all" ∧
        (graphInit [cLog]).label 0 ≠ "all/allfiles") ∧
      ((structuralTarget [cLog] 0, 0) ∈ (graphInit [cLog]).edges ∨
        ∃ e ∈ edges1 [cLog], e.2 = 0) :=
  ⟨⟨by decide, by decide, by decide, by decide, by decide⟩,
    graph_init_nonstructural_has_incoming [cLog] 0 (by decide) (by decide) (by decide)
      (by decide) (by decide)⟩

/-- C7: alias resolution is idempotent, and matching an alias is the same
as matching its canonical form. The hypothesis is the Alias Table
contract that each alias's target is itself canonical (unmapped, or
mapped to itself); the concrete alias data lives in the external checker
modules. -/
theorem get_alias_idempotent_match (cs : List Checker)
    (hcanon : ∀ p ∈ aliasPairs cs, aliasMap cs p.2 = none ∨ aliasMap cs p.2 = some p.2) :
    (∀ a, getAlias cs (getAlias cs a) = getAlias cs a) ∧
      ∀ a B, match_u8 cs a B = match_u8 cs (getAlias cs a) B := by
  have hidem : ∀ a, getAlias cs (getAlias cs a) = getAlias cs a := by
    intro a
    cases hm : aliasMap cs a with
    | none =>
      have ha : getAlias cs a = a := by unfold getAlias; rw [hm]; rfl
      rw [ha]
      exact ha
    | some b =>
      have ha : getAlias cs a = b := by unfold getAlias; rw [hm]; rfl
      rcases hcanon (a, b) (aliasMap_mem hm) with h | h
      · have hb : getAlias cs b = b := by unfold getAlias; rw [h]; rfl
        rw [ha, hb]
      · have hb : getAlias cs b = b := by unfold getAlias; rw [h]; rfl
        rw [ha, hb]
  refine ⟨hidem, fun a B => ?_⟩
  unfold match_u8
  rw [hidem a]

/-- Witness for C7: a checker aliasing `"application/x-zip-compressed"`
to `"application/zip"`. -/
theorem get_alias_idempotent_match_witness :
    (∀ p ∈ aliasPairs [cZip], aliasMap [cZip] p.2 = none ∨ aliasMap [cZip] p.2 = some p.2) ∧
      ((∀ a, getAlias [cZip] (getAlias [cZip] a) = getAlias [cZip] a) ∧
        ∀ a B, match_u8 [cZip] a B = match_u8 [cZip] (getAlias [cZip] a) B) :=
  ⟨by decide, get_alias_idempotent_match [cZip] (by decide)⟩

/-- C8: a MIME identifier whose canonical form is absent from the registry
index matches nothing — `match_u8` and `match_filepath` return false for
every input and path — and an identifier unknown to the alias table
resolves to itself. -/
theorem unknown_type_matches_false (cs : List Checker) (m a : String) (B : List Nat)
    (p : String) (h1 : checkerSupport cs (getAlias cs m) = none)
    (h2 : aliasMap cs a = none) :
    match_u8 cs m B = false ∧ match_filepath cs m p = false ∧ getAlias cs a = a := by
  refine ⟨?_, ?_, ?_⟩
  · unfold match_u8 match_u8_noalias
    rw [h1]
  · unfold match_filepath match_filepath_noalias
    rw [h1]
  · unfold getAlias
    rw [h2]
    rfl

/-- Witness for C8: the identifier `"x/unknown"` against the one-checker
registry. -/
theorem unknown_type_matches_false_witness :
    (checkerSupport [cLog] (getAlias [cLog] "x/unknown") = none ∧
        aliasMap [cLog] "x/unknown" = none) ∧
      (match_u8 [cLog] "x/unknown" [] = false ∧
        match_filepath [cLog] "x/unknown" "p" = false ∧
        getAlias [cLog] "x/unknown" = "x/unknown") :=
  ⟨⟨rfl, rfl⟩, unknown_type_matches_false [cLog] "x/unknown" "x/unknown" [] "p" rfl rfl⟩

/-- C9: walker pruning — the match predicate is only ever invoked on a
direct child of the start node, or on a direct child of a node that was
itself tested and matched; the subtree below a non-matching node is
never entered. -/
theorem walker_pruning (α : Type) (order : List String) (fuel : Nat) (g : Graph)
    (n : Nat) (f : String → α → Bool) (input : α) :
    ∀ c ∈ (walkerT order fuel g n f input).2,
      c ∈ childrenIdx g n ∨
        ∃ p ∈ (walkerT order fuel g n f input).2,
          f (g.label p) input = true ∧ c ∈ childrenIdx g p := by
  induction fuel generalizing n with
  | zero => intro c hc; simp [walkerT] at hc
  | succ fuel ih =>
    intro c hc
    rw [walkerT] at hc ⊢
    rcases walkList_trace_mem g f input _ _ c hc with h | ⟨c0, hc0, hsub, hf0, hcw⟩
    · left
      exact (reorder_perm order g.label (childrenIdx g n)).mem_iff.mp h
    · rcases ih c0 c hcw with h' | ⟨p, hp, hfp, hcp⟩
      · right; exact ⟨c0, hc0, hf0, h'⟩
      · right; exact ⟨p, hsub p hp, hfp, hcp⟩

/-- Witness for C9: in the small test graph, node 2 is tested only as a
child of the start node or of a matching tested node. -/
theorem walker_pruning_witness :
    (2 ∈ (walkerT TYPEORDER 3 gSmall 0 (fun m (_ : List Nat) => m != "x/y") []).2) ∧
      (2 ∈ childrenIdx gSmall 0 ∨
        ∃ p ∈ (walkerT TYPEORDER 3 gSmall 0 (fun m (_ : List Nat) => m != "x/y") []).2,
          (fun m (_ : List Nat) => m != "x/y") (gSmall.label p) [] = true ∧
            2 ∈ childrenIdx gSmall p) :=
  ⟨by decide,
    walker_pruning (List Nat) TYPEORDER 3 gSmall 0 (fun m _ => m != "x/y") [] 2 (by decide)⟩

/-- C10: on an acyclic graph produced by `graph_init`, the walk
terminates — the recursion descends only along edges, so once the fuel
bound exceeds the number of nodes the result no longer depends on it,
for every start node, input, and match predicate. -/
theorem walker_terminates_acyclic (cs : List Checker) (α : Type)
    (f : String → α → Bool) (input : α) (n a b : Nat)
    (hn : n < (graphInit cs).nodes.length) (hnc : NoCycle (graphInit cs))
    (ha : (graphInit cs).nodes.length < a) (hb : (graphInit cs).nodes.length < b) :
    typegraph_walker a (graphInit cs) n input f = typegraph_walker b (graphInit cs) n input f := by
  unfold typegraph_walker
  rw [walkerT_congr TYPEORDER (graphInit cs) f input (graphInit cs).nodes.length n a b
    (noCycle_bnd (graphInit cs) (graphInit_wf cs) hnc n hn) ha hb]

/-- Witness for C10: the one-checker graph is acyclic (exhibited by a
rank function), so fuel 6 and fuel 9 give the same walk from node 3. -/
theorem walker_terminates_acyclic_witness :
    (3 < (graphInit [cLog]).nodes.length ∧ NoCycle (graphInit [cLog]) ∧
        (graphInit [cLog]).nodes.length < 6 ∧ (graphInit [cLog]).nodes.length < 9) ∧
      typegraph_walker 6 (graphInit [cLog]) 3 ([] : List Nat) (fun _ _ => true) =
        typegraph_walker 9 (graphInit [cLog]) 3 ([] : List Nat) (fun _ _ => true) :=
  ⟨⟨by decide, rank_noCycle _ (fun i => if i = 1 then 1 else 0) (by decide), by decide,
      by decide⟩,
    walker_terminates_acyclic [cLog] (List Nat) (fun _ _ => true) [] 3 6 9 (by decide)
      (rank_noCycle _ (fun i => if i = 1 then 1 else 0) (by decide)) (by decide) (by decide)⟩
